import Mathlib

/-!
Verification of the `ungram` grammar-analysis tool.

This file shallowly embeds the core of the repository (lexer, ring buffer,
recursive-descent parser, grammar builder, and the FIRST/FOLLOW analysis
engine) as executable Lean definitions, and proves or refutes the frozen
claims about it.

Modelling conventions:
  * Rust functions whose recursion is not structurally bounded (they recurse
    through the rule map, e.g. `may_miss`, `is_alias`, `first_set_impl`,
    `follow_set_impl`, and the parser loops) are embedded with an explicit
    fuel parameter; every recursive call consumes one unit.  `RunRes.outOfFuel`
    for every fuel value models a non-terminating (stack-overflowing) call,
    `RunRes.panicked` models a Rust `panic!`/`unwrap` failure.
  * `indexmap::IndexSet<&str>` is modelled as a duplicate-free `List String`
    in insertion order; `IndexMap<&str, Expr>` as a `List (String × Expr)`
    whose `insert` replaces the value in place (keeping the position of the
    first insertion) when the key exists, as indexmap does.
  * Source text is a `List Char`; the claim inputs are ASCII, so byte offsets
    and character offsets agree.
-/

/-- `token::Paren` from src/token.rs. -/
inductive Paren where
  | Open
  | Close
deriving DecidableEq, Repr

/-- `token::Kind` from src/token.rs.  `Ignored` (whitespace) and `Comment`
are the two kinds marked `logos::skip`; `Eof` is the `#[default]` variant. -/
inductive TokenKind where
  | Ignored
  | Ident
  | Equal
  | Colon
  | Star
  | Question
  | Literal
  | Comment
  | Paren : Paren → TokenKind
  | Pipe
  | Error
  | Eof
deriving DecidableEq, Repr

/-- Rust `#[default]` on `token::Kind` selects `Eof`. -/
instance : Inhabited TokenKind := ⟨TokenKind.Eof⟩

/-- `span::Span`: a half-open byte range.  The source field `end` is a Lean
keyword, so it is called `stop` here. -/
structure Span where
  start : Nat
  stop : Nat
deriving DecidableEq, Repr

/-- `Span::default()` is `0..0`. -/
instance : Inhabited Span := ⟨⟨0, 0⟩⟩

/-- `token::Token`. -/
structure Token where
  span : Span
  kind : TokenKind
deriving DecidableEq, Repr

/-- `parser::Kind`, the concrete-tree node kinds. -/
inductive TreeKind where
  | Grammar
  | Rule
  | Sequence
  | ZeroOrMore
  | Optional
  | Branch
  | Error
deriving DecidableEq, Repr

/-- `parser::Event`, the parser's event log entries. -/
inductive Event where
  | Open : TreeKind → Event
  | Close
  | Skip
  | Advance : Token → Event
deriving DecidableEq, Repr

/-- `parser::Child` and `parser::Tree` fused into one nested inductive:
the source's `Tree { kind, children }` is `Child.Tree kind children`. -/
inductive Child where
  | Tree : TreeKind → List Child → Child
  | Token : Token → Child
deriving Repr

/-- `grammar::Expr`, the abstract grammar expression. -/
inductive Expr where
  | Literal : String → Expr
  | Rule : String → Expr
  | Sequence : List Expr → Expr
  | Choice : List Expr → Expr
  | Optional : Expr → Expr
  | Repeat : Expr → Expr
deriving Repr

mutual

/-- Structural equality of `Expr` (the `PartialEq` derive in the source),
written by hand because `deriving DecidableEq` does not handle the nested
`List Expr`. -/
def Expr.deq : (a b : Expr) → Decidable (a = b)
  | .Literal a, .Literal b =>
    match String.decEq a b with
    | isTrue h => isTrue (by rw [h])
    | isFalse h => isFalse (by intro hh; cases hh; exact h rfl)
  | .Rule a, .Rule b =>
    match String.decEq a b with
    | isTrue h => isTrue (by rw [h])
    | isFalse h => isFalse (by intro hh; cases hh; exact h rfl)
  | .Sequence xs, .Sequence ys =>
    match Expr.deqList xs ys with
    | isTrue h => isTrue (by rw [h])
    | isFalse h => isFalse (by intro hh; cases hh; exact h rfl)
  | .Choice xs, .Choice ys =>
    match Expr.deqList xs ys with
    | isTrue h => isTrue (by rw [h])
    | isFalse h => isFalse (by intro hh; cases hh; exact h rfl)
  | .Optional x, .Optional y =>
    match Expr.deq x y with
    | isTrue h => isTrue (by rw [h])
    | isFalse h => isFalse (by intro hh; cases hh; exact h rfl)
  | .Repeat x, .Repeat y =>
    match Expr.deq x y with
    | isTrue h => isTrue (by rw [h])
    | isFalse h => isFalse (by intro hh; cases hh; exact h rfl)
  | .Literal _, .Rule _ | .Literal _, .Sequence _ | .Literal _, .Choice _
  | .Literal _, .Optional _ | .Literal _, .Repeat _
  | .Rule _, .Literal _ | .Rule _, .Sequence _ | .Rule _, .Choice _
  | .Rule _, .Optional _ | .Rule _, .Repeat _
  | .Sequence _, .Literal _ | .Sequence _, .Rule _ | .Sequence _, .Choice _
  | .Sequence _, .Optional _ | .Sequence _, .Repeat _
  | .Choice _, .Literal _ | .Choice _, .Rule _ | .Choice _, .Sequence _
  | .Choice _, .Optional _ | .Choice _, .Repeat _
  | .Optional _, .Literal _ | .Optional _, .Rule _ | .Optional _, .Sequence _
  | .Optional _, .Choice _ | .Optional _, .Repeat _
  | .Repeat _, .Literal _ | .Repeat _, .Rule _ | .Repeat _, .Sequence _
  | .Repeat _, .Choice _ | .Repeat _, .Optional _ =>
    isFalse (fun h => Expr.noConfusion h)

/-- Equality of lists of `Expr`, the helper for `Expr.deq`. -/
def Expr.deqList : (xs ys : List Expr) → Decidable (xs = ys)
  | [], [] => isTrue rfl
  | [], _ :: _ => isFalse (fun h => List.noConfusion h)
  | _ :: _, [] => isFalse (fun h => List.noConfusion h)
  | x :: xs, y :: ys =>
    match Expr.deq x y, Expr.deqList xs ys with
    | isTrue h1, isTrue h2 => isTrue (by rw [h1, h2])
    | isFalse h1, _ => isFalse (by intro hh; injection hh; contradiction)
    | isTrue _, isFalse h2 => isFalse (by intro hh; injection hh; contradiction)

end

instance : DecidableEq Expr := Expr.deq

/-- Outcome of running a fueled embedding of a Rust function: a value, a
`panic!`/`unwrap` abort, or fuel exhaustion (the Rust recursion keeps going
past any bound). -/
inductive RunRes (α : Type) where
  | ok : α → RunRes α
  | panicked : RunRes α
  | outOfFuel : RunRes α
deriving Repr

instance {α : Type} [DecidableEq α] : DecidableEq (RunRes α)
  | .ok a, .ok b =>
    match decEq a b with
    | isTrue h => isTrue (by rw [h])
    | isFalse h => isFalse (by intro hh; cases hh; exact h rfl)
  | .ok _, .panicked | .ok _, .outOfFuel
  | .panicked, .ok _ | .panicked, .outOfFuel
  | .outOfFuel, .ok _ | .outOfFuel, .panicked =>
    isFalse (fun h => RunRes.noConfusion h)
  | .panicked, .panicked => isTrue rfl
  | .outOfFuel, .outOfFuel => isTrue rfl

/-- Sequencing of fueled results: failures propagate. -/
def RunRes.bind {α β : Type} : RunRes α → (α → RunRes β) → RunRes β
  | .ok a, f => f a
  | .panicked, _ => .panicked
  | .outOfFuel, _ => .outOfFuel

/-- `IndexSet::insert`: append if absent, keep insertion order. -/
def insertS (s : List String) (x : String) : List String :=
  if x ∈ s then s else s ++ [x]

/-- `IndexSet::extend`: insert each element of `t` in order. -/
def extendS (s t : List String) : List String :=
  t.foldl insertS s

/-- `IndexSet::swap_remove`: whether the element was present, and the set
with it removed by swapping the last element into its slot. -/
def swapRemoveS (s : List String) (x : String) : Bool × List String :=
  match s.findIdx? (fun y => y = x) with
  | none => (false, s)
  | some i => (true, (s.set i (s.getLastD "")).dropLast)

/-- `IndexMap::get` on the rule map. -/
def lookupRule (rules : List (String × Expr)) (name : String) : Option Expr :=
  (rules.find? (fun p => p.1 = name)).map (·.2)

/-- `IndexMap::insert`: if the key exists its value is replaced in place (the
key keeps the position of its first insertion), otherwise the pair is
appended. -/
def insertMap (rules : List (String × Expr)) (k : String) (v : Expr) :
    List (String × Expr) :=
  if rules.any (fun p => p.1 = k) then
    rules.map (fun p => if p.1 = k then (k, v) else p)
  else rules ++ [(k, v)]

/-- `Grammar::non_terminals`: the rule names in declaration order (the keys
are already duplicate-free, so collecting into an `IndexSet` keeps them
as they are). -/
def nonTerminals (rules : List (String × Expr)) : List String :=
  rules.map (·.1)

mutual

/-- `Expr::produces_at_end` from src/grammar.rs: whether a derivation of
`self` can end in (exactly) the expression `expr`. -/
def producesAtEnd (self expr : Expr) : Bool :=
  match self with
  | .Literal _ => expr = self
  | .Rule _ => expr = self
  | .Sequence es =>
    match es.getLast? with
    | some x => expr = x
    | none => false
  | .Choice bs => producesAtEndList bs expr
  | .Optional x => producesAtEnd x expr
  | .Repeat x => producesAtEnd x expr

/-- `branches.iter().any(|x| x.produces_at_end(expr))` with the
short-circuit unrolled. -/
def producesAtEndList (bs : List Expr) (expr : Expr) : Bool :=
  match bs with
  | [] => false
  | b :: rest => producesAtEnd b expr || producesAtEndList rest expr

end

/-- `Expr::is_alias` from src/grammar.rs.  The `expr` argument is always a
`Expr::Rule(name)` in the source (the `assert!` enforces it), so only the
name is passed here.  The recursion through `rules.get(name)` is not
structurally bounded, hence the fuel. -/
def isAlias (rules : List (String × Expr)) : Nat → Expr → String → RunRes Bool
  | 0, _, _ => .outOfFuel
  | f + 1, s, name =>
    match s with
    | .Rule rule =>
      if rule = name then .ok true
      else
        match lookupRule rules name with
        | none => .panicked
        | some e => isAlias rules f e rule
    | .Sequence [e] => isAlias rules f e name
    | .Sequence _ => .ok false
    | .Choice [] => .ok false
    | .Choice (b :: bs) =>
      (isAlias rules f b name).bind fun hd =>
        if hd then .ok true else isAlias rules f (.Choice bs) name
    | .Optional x => isAlias rules f x name
    | .Repeat x => isAlias rules f x name
    | .Literal _ => .ok false

/-- `Expr::may_miss` from src/grammar.rs: whether the expression may derive
nothing.  The `Rule` case recurses through the rule map with no visited
set, hence the fuel; the `any` over sequence/choice elements is unrolled
with its short-circuit. -/
def mayMiss (rules : List (String × Expr)) : Nat → Expr → RunRes Bool
  | 0, _ => .outOfFuel
  | f + 1, e =>
    match e with
    | .Literal _ => .ok false
    | .Rule rule =>
      match lookupRule rules rule with
      | none => .panicked
      | some e2 => mayMiss rules f e2
    | .Sequence [] => .ok false
    | .Sequence (c :: cs) =>
      (mayMiss rules f c).bind fun b =>
        if b then .ok true else mayMiss rules f (.Sequence cs)
    | .Choice [] => .ok false
    | .Choice (c :: cs) =>
      (mayMiss rules f c).bind fun b =>
        if b then .ok true else mayMiss rules f (.Choice cs)
    | .Optional _ => .ok true
    | .Repeat _ => .ok true

/-- The guard `productions.iter().all(|r| rules.get(rule).unwrap()
.is_alias(&Expr::Rule(r), rules))` from the `Sequence` arm of
`first_set_impl`, with `all`'s short-circuit unrolled. -/
def allAlias (rules : List (String × Expr)) :
    Nat → String → List String → RunRes Bool
  | 0, _, _ => .outOfFuel
  | _ + 1, _, [] => .ok true
  | f + 1, rule, r :: rs =>
    match lookupRule rules rule with
    | none => .panicked
    | some target =>
      (isAlias rules f target r).bind fun b =>
        if b then allAlias rules f rule rs else .ok false

/-- `Grammar::first_set_impl` from src/grammar.rs.  The `&mut productions`
set is threaded through and returned next to the result set.  The
`Sequence` loop is unrolled as recursion on the element list: processing
`Sequence (c :: cs)` and then continuing on `Sequence cs` reproduces the
loop (reaching `Sequence []` is the loop running off the end, which inserts
the `"ε"` marker); `break` is modelled by not recursing on the tail. -/
def firstSetImpl (rules : List (String × Expr)) :
    Nat → Expr → List String → RunRes (List String × List String)
  | 0, _, _ => .outOfFuel
  | f + 1, e, prods =>
    match e with
    | .Literal lit => .ok ([lit], prods)
    | .Rule rule =>
      if rule ∈ prods then .ok ([], prods)
      else
        match lookupRule rules rule with
        | none => .panicked
        | some e2 => firstSetImpl rules f e2 (insertS prods rule)
    | .Sequence [] => .ok (["ε"], prods)
    | .Sequence (c :: cs) =>
      match c with
      | .Optional inner | .Repeat inner =>
        (firstSetImpl rules f inner prods).bind fun (s1, p1) =>
          (firstSetImpl rules f (.Sequence cs) p1).bind fun (s2, p2) =>
            .ok (extendS s1 s2, p2)
      | .Rule rule =>
        (allAlias rules f rule prods).bind fun aliasOk =>
          if aliasOk then
            (mayMiss rules f (.Rule rule)).bind fun nullable =>
              if nullable then
                (firstSetImpl rules f (.Rule rule) prods).bind fun (s1, p1) =>
                  (firstSetImpl rules f (.Sequence cs) p1).bind fun (s2, p2) =>
                    .ok (extendS s1 s2, p2)
              else firstSetImpl rules f (.Rule rule) prods
          else firstSetImpl rules f (.Rule rule) prods
      | _ =>
        firstSetImpl rules f c prods
    | .Choice [] => .ok ([], prods)
    | .Choice (b :: bs) =>
      (firstSetImpl rules f b prods).bind fun (s1, p1) =>
        (firstSetImpl rules f (.Choice bs) p1).bind fun (s2, p2) =>
          .ok (extendS s1 s2, p2)
    | .Optional inner => firstSetImpl rules f inner prods
    | .Repeat inner => firstSetImpl rules f inner prods

/-- `Grammar::first_set`: look the rule up (panicking if absent) and run
`first_set_impl` with the visited set seeded with the rule's own name. -/
def firstSet (rules : List (String × Expr)) (fuel : Nat) (name : String) :
    RunRes (List String) :=
  match lookupRule rules name with
  | none => .panicked
  | some e => (firstSetImpl rules fuel e [name]).bind fun (s, _) => .ok (s)

mutual

/-- `Grammar::follow_set_impl` from src/grammar.rs.  `of` is the rule whose
FOLLOW is being collected, `parent` the rule whose right-hand side `e` is
being scanned, `prods` the visited-name set (cloned per sub-rule in the
source, so it is passed by value here), `strict` suppresses the
self-repetition correction.  Any expression other than `Choice`/`Sequence`
hits the source's `panic!`. -/
def followSetImpl (rules : List (String × Expr)) :
    Nat → String → String → Expr → List String → Bool → RunRes (List String)
  | 0, _, _, _, _, _ => .outOfFuel
  | f + 1, of, parent, e, prods, strict =>
    match e with
    | .Choice [] => .ok []
    | .Choice (b :: bs) =>
      (followSetImpl rules f of parent b prods strict).bind fun s1 =>
        (followSetImpl rules f of parent (.Choice bs) prods strict).bind fun s2 =>
          .ok (extendS s1 s2)
    | .Sequence es => followSeq rules f of parent es false prods strict
    | _ => .panicked

/-- The `while let Some(expr) = iter.next()` loop of `follow_set_impl`,
unrolled over the element list with the `last_may_be_empty` flag carried
across iterations.  `iter.clone().next()` (peeking the following element)
is the head of `cs`. -/
def followSeq (rules : List (String × Expr)) :
    Nat → String → String → List Expr → Bool → List String → Bool →
      RunRes (List String)
  | 0, _, _, _, _, _, _ => .outOfFuel
  | _ + 1, _, _, [], _, _, _ => .ok []
  | f + 1, of, parent, c :: cs, lastMayBeEmpty, prods, strict =>
    if !(lastMayBeEmpty || producesAtEnd c (.Rule of)) then
      followSeq rules f of parent cs lastMayBeEmpty prods strict
    else
      -- `Fn*` may produce `Fn Fn`: add FIRST of the repeated body.
      (match c with
        | .Repeat rep =>
          if producesAtEnd rep (.Rule of) && !strict then
            (firstSetImpl rules f rep []).bind fun (s, _) => .ok s
          else .ok []
        | _ => .ok []).bind fun s0 =>
        match cs with
        | [] =>
          -- no following expression: FOLLOW(parent) is accumulated.
          (followRules rules f parent rules prods strict).bind fun s2 =>
            .ok (extendS s0 s2)
        | nexpr :: _ =>
          (firstSetImpl rules f nexpr []).bind fun (fst, _) =>
            let pr := swapRemoveS fst "ε"
            let set1 := extendS s0 pr.2
            (if pr.1 then RunRes.ok true else mayMiss rules f nexpr).bind fun mm =>
              let lmbe := pr.1 || mm
              if pr.1 then
                (followRules rules f parent rules prods strict).bind fun s2 =>
                  (followSeq rules f of parent cs lmbe prods strict).bind
                    fun s3 => .ok (extendS (extendS set1 s2) s3)
              else
                (followSeq rules f of parent cs lmbe prods strict).bind
                  fun s3 => .ok (extendS set1 s3)

/-- The `for (sub_name, sub_rule) in self.rules.iter()` loop inside
`follow_set_impl`: each iteration clones the visited set, skips the rule if
its name is already visited, and otherwise recurses computing
FOLLOW(parent) inside that rule. -/
def followRules (rules : List (String × Expr)) :
    Nat → String → List (String × Expr) → List String → Bool →
      RunRes (List String)
  | 0, _, _, _, _ => .outOfFuel
  | _ + 1, _, [], _, _ => .ok []
  | f + 1, parent, (subName, subRule) :: rest, prods, strict =>
    if subName ∈ prods then followRules rules f parent rest prods strict
    else
      (followSetImpl rules f parent subName subRule (insertS prods subName)
          strict).bind fun s1 =>
        (followRules rules f parent rest prods strict).bind fun s2 =>
          .ok (extendS s1 s2)

end

/-- The FOLLOW accumulation the CLI driver performs for a non-terminal `of`:
the union over every rule `(name, rule)` of
`follow_set_impl(of, name, rule, {name}, strict)`. -/
def followAllAux (rules : List (String × Expr)) (fuel : Nat) (of : String)
    (strict : Bool) : List (String × Expr) → RunRes (List String)
  | [] => .ok []
  | (name, rule) :: rest =>
    (followSetImpl rules fuel of name rule [name] strict).bind fun s1 =>
      (followAllAux rules fuel of strict rest).bind fun s2 =>
        .ok (extendS s1 s2)

/-- `follow(of, strict)`: accumulate `follow_set_impl` across all rules. -/
def followAll (rules : List (String × Expr)) (fuel : Nat) (of : String)
    (strict : Bool) : RunRes (List String) :=
  followAllAux rules fuel of strict rules

/-- `ring::Ring<T, SIZE>`: a fixed array (here a list whose length is the
compile-time `SIZE`) and a head index. -/
structure RingBuf (α : Type) where
  data : List α
  head : Nat
deriving Repr

/-- `Ring::new`: `SIZE` default values, head 0. -/
def RingBuf.new (α : Type) [Inhabited α] (size : Nat) : RingBuf α :=
  { data := List.replicate size default, head := 0 }

/-- `Ring::push`: overwrite the slot at `head` and step `head` by one
modulo `SIZE`. -/
def RingBuf.push {α : Type} (r : RingBuf α) (v : α) : RingBuf α :=
  { data := r.data.set r.head v, head := (r.head + 1) % r.data.length }

/-- `Ring::get`: the element `index` slots past the head, `none` out of
range (the `Index` impl unwraps this). -/
def RingBuf.get {α : Type} [Inhabited α] (r : RingBuf α) (i : Nat) : Option α :=
  if i < r.data.length then
    some (r.data.getD ((r.head + i) % r.data.length) default)
  else none

/-- `Ring::data()`: the `SIZE` elements in ring order starting at the
head. -/
def RingBuf.dataFn {α : Type} [Inhabited α] (r : RingBuf α) : List α :=
  (List.range r.data.length).map fun i =>
    r.data.getD ((r.head + i) % r.data.length) default

/-- `lexer::Lexer<'src, LOOKUP>`: the remaining spanned token iterator and
the two lookahead rings.  The `inner` iterator is modelled as the list of
`(kind, span)` pairs it has yet to yield (for a real source this is
`tokenize src`, where the `Err → Kind::Error` mapping of `next_token_impl`
has already been applied). -/
structure LexerSt where
  inner : List (TokenKind × Span)
  bufferSpan : RingBuf Span
  bufferKind : RingBuf TokenKind
  lastSpan : Span
deriving Repr

/-- `Lexer::next_token_impl`: pull the next scanned token, recording its
span as `last_span`; past the end of input produce `Eof` with the last
scanned span. -/
def nextTokenImpl (s : LexerSt) : (TokenKind × Span) × LexerSt :=
  match s.inner with
  | [] => ((.Eof, s.lastSpan), s)
  | (k, sp) :: rest => ((k, sp), { s with inner := rest, lastSpan := sp })

/-- `Lexer::advance`: scan one token and push it into both rings. -/
def LexerSt.advance (s : LexerSt) : LexerSt :=
  let r := nextTokenImpl s
  { r.2 with
    bufferSpan := r.2.bufferSpan.push r.1.2
    bufferKind := r.2.bufferKind.push r.1.1 }

/-- `advance` iterated `k` times. -/
def advanceK : Nat → LexerSt → LexerSt
  | 0, s => s
  | k + 1, s => advanceK k s.advance

/-- `Lexer::new`: empty rings of width `lookup`, `last_span = 0..0`, then
`lookup` advances to fill the lookahead buffer. -/
def LexerSt.new (lookup : Nat) (tokens : List (TokenKind × Span)) : LexerSt :=
  advanceK lookup
    { inner := tokens
      bufferSpan := RingBuf.new Span lookup
      bufferKind := RingBuf.new TokenKind lookup
      lastSpan := ⟨0, 0⟩ }

/-- `Lexer::peek_array`: the kinds of the next `LOOKUP` tokens. -/
def LexerSt.peekArray (s : LexerSt) : List TokenKind :=
  s.bufferKind.dataFn

/-- `Lexer::peek_kind`. -/
def LexerSt.peekKind (s : LexerSt) : TokenKind :=
  (s.bufferKind.get 0).getD default

/-- `Lexer::peek_token`. -/
def LexerSt.peekToken (s : LexerSt) : Token :=
  ⟨(s.bufferSpan.get 0).getD default, (s.bufferKind.get 0).getD default⟩

/-- `Lexer::next_token`: the current front token, then advance. -/
def LexerSt.nextToken (s : LexerSt) : Token × LexerSt :=
  (s.peekToken, s.advance)

/-- The characters of the `[ \t\r\n]+` whitespace class. -/
def isWsChar (c : Char) : Bool :=
  c = ' ' || c = '\t' || c = '\r' || c = '\n'

/-- The characters of the `[a-zA-Z0-9_]+` identifier class. -/
def isIdentChar (c : Char) : Bool :=
  c.isAlpha || c.isDigit || c = '_'

/-- One maximal-munch step of the logos-generated scanner over `token::Kind`'s
regexes: the token kind to emit (`none` for the two `logos::skip` rules,
whitespace and `//`-comments) and how many characters the match consumes.
No rule matching at all yields an error token consuming one character
(`next_token_impl` maps logos errors to `Kind::Error`).  The rule families
are distinguished by their first character, so longest-match never has to
compare competing rules. -/
def scanStep : List Char → Option TokenKind × Nat
  | [] => (none, 0)
  | c :: rest =>
    if isWsChar c then (none, ((c :: rest).takeWhile isWsChar).length)
    else if isIdentChar c then
      (some .Ident, ((c :: rest).takeWhile isIdentChar).length)
    else if c = '=' then (some .Equal, 1)
    else if c = ':' then (some .Colon, 1)
    else if c = '*' then (some .Star, 1)
    else if c = '?' then (some .Question, 1)
    else if c = '(' then (some (.Paren .Open), 1)
    else if c = ')' then (some (.Paren .Close), 1)
    else if c = '|' then (some .Pipe, 1)
    else if c = '\'' then
      -- `'[^']*'` needs a closing quote; without one nothing matches.
      if rest.any (fun d => d = '\'') then
        (some .Literal, (rest.takeWhile (fun d => !(d = '\''))).length + 2)
      else (some .Error, 1)
    else if c = '/' then
      -- `//.*`: a line comment, skipped; a lone `/` matches nothing.
      match rest with
      | d :: tail =>
        if d = '/' then (none, (tail.takeWhile (fun e => !(e = '\n'))).length + 2)
        else (some .Error, 1)
      | [] => (some .Error, 1)
    else (some .Error, 1)

/-- The loop of `logos`' `SpannedIter` over the whole input: repeatedly take
one maximal-munch step at position `pos`, emitting `(kind, span)` for token
rules, nothing for the two skip rules, and `Kind::Error` (via
`next_token_impl`'s `unwrap_or`) where no rule matches.  Each step consumes
at least one character (`scanStep_pos`), so fuel equal to the input length
always suffices (`tokenizeAux_fuel`); the fuel keeps the recursion
structural. -/
def tokenizeAux : Nat → List Char → Nat → List (TokenKind × Span)
  | _, [], _ => []
  | 0, _ :: _, _ => []
  | f + 1, c :: rest, pos =>
    let r := scanStep (c :: rest)
    let toks := tokenizeAux f ((c :: rest).drop r.2) (pos + r.2)
    match r.1 with
    | some k => (k, ⟨pos, pos + r.2⟩) :: toks
    | none => toks

/-- Scan a whole source text into its token stream. -/
def tokenize (cs : List Char) : List (TokenKind × Span) :=
  tokenizeAux cs.length cs 0

/-- `parser::Parser`: a 2-token-lookahead lexer plus the event log. -/
structure ParserSt where
  lexer : LexerSt
  events : List Event
deriving Repr

/-- `Parser::eof` (via `peek_kind`). -/
def ParserSt.peekKind (p : ParserSt) : TokenKind :=
  p.lexer.peekKind

/-- `Parser::peek_array`. -/
def ParserSt.peekArr (p : ParserSt) : List TokenKind :=
  p.lexer.peekArray

/-- `Parser::advance`: consume the front token and log it as a leaf. -/
def ParserSt.padvance (p : ParserSt) : ParserSt :=
  let r := p.lexer.nextToken
  { lexer := r.2, events := p.events ++ [.Advance r.1] }

/-- `Parser::skip`: consume the front token without logging a leaf. -/
def ParserSt.pskip (p : ParserSt) : ParserSt :=
  { lexer := p.lexer.advance, events := p.events ++ [.Skip] }

/-- `Parser::open`: push a placeholder `Open(Error)` event and return its
index as the mark. -/
def ParserSt.popen (p : ParserSt) : Nat × ParserSt :=
  (p.events.length, { p with events := p.events ++ [.Open .Error] })

/-- `Parser::close`: rewrite the marked placeholder with the final kind and
append a `Close` event; the returned `MarkClose` is the same index. -/
def ParserSt.pclose (p : ParserSt) (mark : Nat) (kind : TreeKind) :
    Nat × ParserSt :=
  (mark, { p with events := (p.events.set mark (.Open kind)) ++ [.Close] })

/-- `Parser::open_before`: insert a placeholder `Open(Error)` event in front
of an already-closed sibling. -/
def ParserSt.popenBefore (p : ParserSt) (closed : Nat) : Nat × ParserSt :=
  (closed, { p with events := p.events.insertIdx closed (.Open .Error) })

/-- `Parser::skip_if`. -/
def ParserSt.pskipIf (p : ParserSt) (kind : TokenKind) : Bool × ParserSt :=
  if p.peekKind = kind then (true, p.pskip) else (false, p)

/-- `Parser::skip_expect`: panic when the expected punctuation is absent. -/
def ParserSt.pskipExpect (p : ParserSt) (kind : TokenKind) : RunRes ParserSt :=
  let r := p.pskipIf kind
  if r.1 then .ok r.2 else .panicked

/-- `Parser::advance_if`. -/
def ParserSt.padvanceIf (p : ParserSt) (kind : TokenKind) : Bool × ParserSt :=
  if p.peekKind = kind then (true, p.padvance) else (false, p)

/-- `Parser::expect`: panic when the expected token is absent. -/
def ParserSt.pexpect (p : ParserSt) (kind : TokenKind) : RunRes ParserSt :=
  let r := p.padvanceIf kind
  if r.1 then .ok r.2 else .panicked

mutual

/-- `grammar::term` from src/parser.rs: a single term with an optional
`*`/`?` suffix, or a parenthesised expression with an optional suffix. -/
def pterm : Nat → ParserSt → RunRes ParserSt
  | 0, _ => .outOfFuel
  | f + 1, p =>
    match p.peekKind with
    | .Ident | .Literal =>
      let starOrQuestion : Option TokenKind :=
        match p.peekArr with
        | [_, .Star] => some .Star
        | [_, .Question] => some .Question
        | _ => none
      (match starOrQuestion with
        | some sq =>
          let r := p.popen
          let p := r.2.padvance.pskip
          .ok (p.pclose r.1
            (if sq = .Star then .ZeroOrMore else .Optional)).2
        | none => .ok p.padvance)
    | .Paren .Open =>
      (pexpr f p.pskip).bind fun (cl, p) =>
        (p.pskipExpect (.Paren .Close)).bind fun p =>
          if p.peekKind = .Star then
            let r := p.popenBefore cl
            .ok (r.2.pskip.pclose r.1 .ZeroOrMore).2
          else if p.peekKind = .Question then
            let r := p.popenBefore cl
            .ok (r.2.pskip.pclose r.1 .Optional).2
          else .ok p
    | _ => .panicked

/-- The `loop` inside `grammar::expr`, with the mutable locals (`opened`,
`is_branch`, `last_was_pipe`, `parsed_in_sequence`) as parameters. -/
def pexprLoop :
    Nat → Nat → Bool → Bool → Nat → ParserSt → RunRes (Nat × ParserSt)
  | 0, _, _, _, _, _ => .outOfFuel
  | f + 1, opened, isBranch, lastWasPipe, parsedInSeq, p =>
    match p.peekKind with
    | .Pipe =>
      -- `Rule = A B C | d` regroups the run parsed so far as a Sequence.
      let r :=
        if parsedInSeq > 1 then
          let rc := p.pclose opened .Sequence
          rc.2.popenBefore rc.1
        else (opened, p)
      pexprLoop f r.1 true true parsedInSeq r.2.pskip
    | .Ident | .Literal | .Paren .Open =>
      let parsedInSeq := if !isBranch then parsedInSeq + 1 else parsedInSeq
      if p.peekArr = [.Ident, .Equal] then
        .ok (p.pclose opened (if isBranch then .Branch else .Sequence))
      else if isBranch && !lastWasPipe then .panicked
      else
        (pterm f p).bind fun p =>
          pexprLoop f opened isBranch false parsedInSeq p
    | _ => .ok (p.pclose opened (if isBranch then .Branch else .Sequence))

/-- `grammar::expr` from src/parser.rs. -/
def pexpr : Nat → ParserSt → RunRes (Nat × ParserSt)
  | 0, _ => .outOfFuel
  | f + 1, p =>
    if p.peekArr = [.Ident, .Equal] then .panicked
    else
      let r := p.popen
      (pterm f r.2).bind fun p => pexprLoop f r.1 false false 1 p

end

/-- `grammar::rule` from src/parser.rs. -/
def prule : Nat → ParserSt → RunRes ParserSt
  | 0, _ => .outOfFuel
  | f + 1, p =>
    let r := p.popen
    (r.2.pexpect .Ident).bind fun p =>
      (p.pskipExpect .Equal).bind fun p =>
        (pexpr f p).bind fun (_, p) =>
          .ok (p.pclose r.1 .Rule).2

/-- The `while !p.eof()` loop of `grammar::file`. -/
def pfileLoop : Nat → ParserSt → RunRes ParserSt
  | 0, _ => .outOfFuel
  | f + 1, p =>
    if p.peekKind = .Eof then .ok p
    else (prule f p).bind fun p => pfileLoop f p

/-- `grammar::file`: the whole parse (`Parser::parse`). -/
def pfile (fuel : Nat) (p : ParserSt) : RunRes ParserSt :=
  let r := p.popen
  (pfileLoop fuel r.2).bind fun p => .ok (p.pclose r.1 .Grammar).2

/-- The replay loop of `Parser::tree`: `Open` pushes an in-progress node,
`Close` pops it and attaches it to its parent, `Advance` attaches a leaf,
`Skip` does nothing; the stack's top is the head of the list.  Underflows
are the source's `unwrap` panics.  At the end `stack.pop().unwrap()` yields
the most recently pushed node. -/
def replay : List Event → List (TreeKind × List Child) →
    RunRes (TreeKind × List Child)
  | [], stack =>
    match stack with
    | t :: _ => .ok t
    | [] => .panicked
  | .Open k :: rest, stack => replay rest ((k, []) :: stack)
  | .Close :: rest, t :: parent :: stack =>
    replay rest ((parent.1, parent.2 ++ [Child.Tree t.1 t.2]) :: stack)
  | .Close :: _, _ => .panicked
  | .Skip :: rest, stack => replay rest stack
  | .Advance tok :: rest, t :: stack =>
    replay rest ((t.1, t.2 ++ [Child.Token tok]) :: stack)
  | .Advance _ :: _, [] => .panicked

/-- `Parser::tree`: assert the last event is a `Close`, drop it, and replay
the rest into the root node. -/
def treeOf (events : List Event) : RunRes (TreeKind × List Child) :=
  match events.getLast? with
  | some .Close => replay events.dropLast []
  | _ => .panicked

/-- `&self.source[span]` for ASCII sources: the characters in the half-open
range. -/
def sliceStr (src : List Char) (a b : Nat) : String :=
  String.mk ((src.drop a).take (b - a))

mutual

/-- `GrammarBuilder::parse_expr` from src/grammar.rs. -/
def parseExprB (src : List Char) : Nat → Child → RunRes Expr
  | 0, _ => .outOfFuel
  | f + 1, child =>
    match child with
    | .Token tok =>
      match tok.kind with
      | .Literal =>
        .ok (Expr.Literal (sliceStr src (tok.span.start + 1) (tok.span.stop - 1)))
      | .Ident => .ok (Expr.Rule (sliceStr src tok.span.start tok.span.stop))
      | _ => .panicked
    | .Tree kind children =>
      match kind with
      | .Sequence =>
        (parseExprList src f children).bind fun es => .ok (Expr.Sequence es)
      | .Branch =>
        match children with
        | [c] => parseExprB src f c
        | cs => (parseExprList src f cs).bind fun es => .ok (Expr.Choice es)
      | .Optional =>
        match children with
        | c :: _ => (parseExprB src f c).bind fun e => .ok (Expr.Optional e)
        | [] => .panicked
      | .ZeroOrMore =>
        match children with
        | c :: _ => (parseExprB src f c).bind fun e => .ok (Expr.Repeat e)
        | [] => .panicked
      | _ => .panicked

/-- The child-collection loops inside `parse_expr`. -/
def parseExprList (src : List Char) : Nat → List Child → RunRes (List Expr)
  | 0, _ => .outOfFuel
  | _ + 1, [] => .ok []
  | f + 1, c :: cs =>
    (parseExprB src f c).bind fun e =>
      (parseExprList src f cs).bind fun es => .ok (e :: es)

end

/-- The `for child in &self.tree.children` loop of `GrammarBuilder::build`:
each child must be a `Rule` node whose first child is an identifier token
(the rule name) and whose second child is the right-hand side. -/
def buildRules (src : List Char) (fuel : Nat) :
    List Child → List (String × Expr) → RunRes (List (String × Expr))
  | [], rules => .ok rules
  | .Tree .Rule (c0 :: c1 :: _) :: rest, rules =>
    (match c0 with
      | .Token tok =>
        match tok.kind with
        | .Ident => RunRes.ok (sliceStr src tok.span.start tok.span.stop)
        | _ => .panicked
      | _ => .panicked).bind fun name =>
      (parseExprB src fuel c1).bind fun e =>
        buildRules src fuel rest (insertMap rules name e)
  | _, _ => .panicked

/-- `GrammarBuilder::build`. -/
def buildG (src : List Char) (fuel : Nat) (root : TreeKind × List Child) :
    RunRes (List (String × Expr)) :=
  buildRules src fuel root.2 []

/-- The full front-end pipeline the CLI runs: tokenize the source, parse it
with a 2-token-lookahead lexer, replay the event log into the concrete
tree, and lower it to the abstract grammar. -/
def pipelineG (fuel : Nat) (src : String) : RunRes (List (String × Expr)) :=
  let p : ParserSt :=
    { lexer := LexerSt.new 2 (tokenize src.toList), events := [] }
  (pfile fuel p).bind fun p =>
    (treeOf p.events).bind fun root => buildG src.toList fuel root

/-- The cyclic grammar `A = B  B = A` as the grammar builder lowers it
(every right-hand side is wrapped in a `Sequence` node). -/
def gC1 : List (String × Expr) :=
  [("A", .Sequence [.Rule "B"]), ("B", .Sequence [.Rule "A"])]

/-- The grammar `A = b?  b = 'y'` as the grammar builder lowers it. -/
def gC2 : List (String × Expr) :=
  [("A", .Sequence [.Optional (.Rule "b")]), ("b", .Sequence [.Literal "y"])]

/-- The grammar `S = A 'x'  A = S?` as the grammar builder lowers it: the
element `Rule "A"` of `S`'s sequence is nullable and `A` is an alias-like
wrapper of `S`. -/
def gC3 : List (String × Expr) :=
  [("S", .Sequence [.Rule "A", .Literal "x"]),
   ("A", .Sequence [.Optional (.Rule "S")])]

/-- The grammar `Z = A b?  b = 'y'  A = 'a'` as the grammar builder lowers
it. -/
def gC4 : List (String × Expr) :=
  [("Z", .Sequence [.Rule "A", .Optional (.Rule "b")]),
   ("b", .Sequence [.Literal "y"]), ("A", .Sequence [.Literal "a"])]

/-- `gC4` extended with `W = Z 'w'`, which makes FOLLOW("Z") non-empty. -/
def gC4w : List (String × Expr) :=
  gC4 ++ [("W", .Sequence [.Rule "Z", .Literal "w"])]

/-- The grammar `Fn = 'fn' Fn* ';'` as the grammar builder lowers it. -/
def gC5 : List (String × Expr) :=
  [("Fn", .Sequence [.Literal "fn", .Repeat (.Rule "Fn"), .Literal ";"])]

/-- Modelled from the spec: claim C3's description of the `Sequence` rule of
FIRST ("for elements that are themselves Optional/Repeat, fold in their
FIRST and continue; for a plain element, fold in its FIRST and stop; if the
end of the sequence is reached without a stopping element, add the empty
marker").  Element FIRSTs are computed by the code's `firstSetImpl`; the
only difference from the code is the absence of the alias/nullability arm
for `Rule` elements. -/
def firstSeqClaim (rules : List (String × Expr)) :
    Nat → List Expr → List String → RunRes (List String × List String)
  | 0, _, _ => .outOfFuel
  | _ + 1, [], prods => .ok (["ε"], prods)
  | f + 1, c :: cs, prods =>
    match c with
    | .Optional inner | .Repeat inner =>
      (firstSetImpl rules f inner prods).bind fun r1 =>
        (firstSeqClaim rules f cs r1.2).bind fun r2 =>
          .ok (extendS r1.1 r2.1, r2.2)
    | _ => firstSetImpl rules f c prods

/-- Modelled from the spec: `first` with claim C3's sequence rule in place
of the code's (the rest of the algorithm is the code's). -/
def firstSetClaimC3 (rules : List (String × Expr)) (fuel : Nat)
    (name : String) : RunRes (List String) :=
  match lookupRule rules name with
  | none => .panicked
  | some (.Sequence es) =>
    (firstSeqClaim rules fuel es [name]).bind fun r => .ok r.1
  | some e => (firstSetImpl rules fuel e [name]).bind fun r => .ok r.1

/-- The span `next_token_impl` gives every end-of-input token: the span of
the last scanned token (`0..0` when nothing was ever scanned). -/
def lastSpanOf (ts : List (TokenKind × Span)) : Span :=
  match ts.getLast? with
  | some p => p.2
  | none => ⟨0, 0⟩

/-- The scanned token sequence padded past its end with end-of-input
tokens carrying the final scanned span. -/
def paddedTok (ts : List (TokenKind × Span)) (j : Nat) : TokenKind × Span :=
  ts.getD j (.Eof, lastSpanOf ts)

/-- What the ring buffers of a lexer with lookahead `lookup` hold at stream
position `j`: the first `lookup` positions still hold the `Ring::new`
defaults (`Eof` kind, `0..0` span), later positions hold the scanned
(padded) stream shifted by `lookup`. -/
def streamAt (lookup : Nat) (ts : List (TokenKind × Span)) (j : Nat) :
    TokenKind × Span :=
  if j < lookup then (.Eof, ⟨0, 0⟩) else paddedTok ts (j - lookup)

/-- The lexer's `last_span` after `m` tokens have been pulled from a stream
`ts`: the span of the last element of `ts.take m`, `0..0` before the first
pull. -/
def lastSpanAfter (ts : List (TokenKind × Span)) (m : Nat) : Span :=
  match (ts.take m).getLast? with
  | some p => p.2
  | none => ⟨0, 0⟩

/-- The lexer state before any `advance`: the full stream, fresh rings,
`last_span = 0..0` (the state `Lexer::new` starts from). -/
def initLexer (lookup : Nat) (tokens : List (TokenKind × Span)) : LexerSt :=
  { inner := tokens
    bufferSpan := RingBuf.new Span lookup
    bufferKind := RingBuf.new TokenKind lookup
    lastSpan := ⟨0, 0⟩ }

/-- Whether a fueled run produced a value (`Ok` in Rust terms). -/
def RunRes.succeeded {α : Type} : RunRes α → Bool
  | .ok _ => true
  | .panicked => false
  | .outOfFuel => false

/-- The `(name, right-hand side)` pairs the `build` loop walks, in source
order and with duplicates kept: `buildRules` is exactly this extraction
followed by folding `IndexMap::insert` over the pairs
(`buildRules_insertMap_fold`). -/
def extractPairs (src : List Char) (fuel : Nat) :
    List Child → RunRes (List (String × Expr))
  | [] => .ok []
  | .Tree .Rule (c0 :: c1 :: _) :: rest =>
    (match c0 with
      | .Token tok =>
        match tok.kind with
        | .Ident => RunRes.ok (sliceStr src tok.span.start tok.span.stop)
        | _ => .panicked
      | _ => .panicked).bind fun name =>
      (parseExprB src fuel c1).bind fun e =>
        (extractPairs src fuel rest).bind fun ps => .ok ((name, e) :: ps)
  | _ => .panicked

/-- A scan step on a non-empty input always consumes at least one
character. -/
theorem scanStep_pos (c : Char) (rest : List Char) :
    1 ≤ (scanStep (c :: rest)).2 := by
  simp only [scanStep]
  by_cases h1 : isWsChar c = true
  case pos => rw [if_pos h1]; simp [List.takeWhile_cons, h1]
  case neg =>
  rw [if_neg h1]
  by_cases h2 : isIdentChar c = true
  case pos => rw [if_pos h2]; simp [List.takeWhile_cons, h2]
  case neg =>
  rw [if_neg h2]
  by_cases h3 : c = '='
  case pos => rw [if_pos h3]
  case neg =>
  rw [if_neg h3]
  by_cases h4 : c = ':'
  case pos => rw [if_pos h4]
  case neg =>
  rw [if_neg h4]
  by_cases h5 : c = '*'
  case pos => rw [if_pos h5]
  case neg =>
  rw [if_neg h5]
  by_cases h6 : c = '?'
  case pos => rw [if_pos h6]
  case neg =>
  rw [if_neg h6]
  by_cases h7 : c = '('
  case pos => rw [if_pos h7]
  case neg =>
  rw [if_neg h7]
  by_cases h8 : c = ')'
  case pos => rw [if_pos h8]
  case neg =>
  rw [if_neg h8]
  by_cases h9 : c = '|'
  case pos => rw [if_pos h9]
  case neg =>
  rw [if_neg h9]
  by_cases h10 : c = '\''
  case pos =>
    rw [if_pos h10]
    split <;> simp
  case neg =>
  rw [if_neg h10]
  by_cases h11 : c = '/'
  case pos =>
    rw [if_pos h11]
    cases rest with
    | nil => simp
    | cons d tail =>
      dsimp only
      split <;> simp
  case neg => rw [if_neg h11]

/-- One extra unit of fuel changes nothing once the fuel covers the input
length: each scan step consumes at least one character. -/
theorem tokenizeAux_fuel_succ (f : Nat) :
    ∀ (cs : List Char) (pos : Nat), cs.length ≤ f →
      tokenizeAux (f + 1) cs pos = tokenizeAux f cs pos := by
  induction f with
  | zero =>
    intro cs pos hf
    match cs with
    | [] => simp [tokenizeAux]
  | succ f ih =>
    intro cs pos hf
    match cs with
    | [] => simp [tokenizeAux]
    | c :: rest =>
      simp only [tokenizeAux]
      have hp := scanStep_pos c rest
      rw [ih ((c :: rest).drop (scanStep (c :: rest)).2)
        (pos + (scanStep (c :: rest)).2)
        (by simp only [List.length_drop, List.length_cons]
            simp only [List.length_cons] at hf
            omega)]

/-- Fuel adequacy: any fuel at least the input length scans exactly as the
canonical fuel `cs.length` does, so the scan of `tokenize` below is total
and complete. -/
theorem tokenizeAux_fuel (cs : List Char) (pos : Nat) :
    ∀ (f : Nat), cs.length ≤ f →
      tokenizeAux f cs pos = tokenizeAux cs.length cs pos := by
  intro f
  induction f with
  | zero => intro hf; simp_all
  | succ f ih =>
    intro hf
    rcases Nat.lt_or_ge cs.length (f + 1) with h | h
    · rw [tokenizeAux_fuel_succ f cs pos (by omega), ih (by omega)]
    · have : cs.length = f + 1 := by omega
      rw [this]

theorem RingBuf.length_push {α : Type} (r : RingBuf α) (v : α) :
    (r.push v).data.length = r.data.length := by
  simp [RingBuf.push]

theorem RingBuf.head_push {α : Type} (r : RingBuf α) (v : α) :
    (r.push v).head = (r.head + 1) % r.data.length := rfl

theorem RingBuf.dataFn_push {α : Type} [Inhabited α] (r : RingBuf α) (v : α)
    (h : r.head < r.data.length) :
    (r.push v).dataFn = r.dataFn.drop 1 ++ [v] := by
  have hn : 0 < r.data.length := Nat.lt_of_le_of_lt (Nat.zero_le _) h
  apply List.ext_getElem
  · simp [RingBuf.dataFn, RingBuf.push]
    omega
  · intro i h1 h2
    have hlen : (r.push v).data.length = r.data.length := by simp [RingBuf.push]
    have hiN : i < r.data.length := by
      simpa [RingBuf.dataFn, hlen] using h1
    set n := r.data.length with hn_def
    have hmod : ((r.head + 1) % n + i) % n = (r.head + 1 + i) % n :=
      Nat.mod_add_mod _ _ _
    have hjlt : (r.head + 1 + i) % n < n := Nat.mod_lt _ hn
    have hL : (r.push v).dataFn[i] =
        (r.data.set r.head v).getD ((r.head + 1 + i) % n) default := by
      simp [RingBuf.dataFn, RingBuf.push, hmod, List.getElem_map, List.getElem_range]
    rw [hL]
    rcases Nat.lt_or_ge i (n - 1) with hi | hi
    · have hne : (r.head + 1 + i) % n ≠ r.head := by
        rcases Nat.lt_or_ge (r.head + 1 + i) n with hcase | hcase
        · rw [Nat.mod_eq_of_lt hcase]; omega
        · have h2n : r.head + 1 + i < 2 * n := by omega
          have : (r.head + 1 + i) % n = r.head + 1 + i - n := by
            rw [Nat.mod_eq_sub_mod hcase, Nat.mod_eq_of_lt (by omega)]
          rw [this]; omega
      have hstep : (r.dataFn.drop 1 ++ [v])[i]
          = r.data.getD ((r.head + (1 + i)) % n) default := by
        rw [List.getElem_append_left (by simp [RingBuf.dataFn]; omega)]
        rw [List.getElem_drop]
        simp [RingBuf.dataFn, List.getElem_map, List.getElem_range]
      rw [hstep]
      have harg : r.head + (1 + i) = r.head + 1 + i := by omega
      rw [harg]
      have hgd : (r.data.set r.head v).getD ((r.head + 1 + i) % n) default
          = r.data.getD ((r.head + 1 + i) % n) default := by
        rw [List.getD_eq_getElem _ _ (by rw [List.length_set]; omega),
          List.getD_eq_getElem _ _ (by omega)]
        rw [List.getElem_set]
        rw [if_neg (by omega)]
      exact hgd
    · have hieq : i = n - 1 := by omega
      have hmodv : (r.head + 1 + i) % n = r.head := by
        subst hieq
        have : r.head + 1 + (n - 1) = r.head + n := by omega
        rw [this, Nat.add_mod_right, Nat.mod_eq_of_lt h]
      rw [hmodv]
      have hRg : (r.dataFn.drop 1 ++ [v])[i] = v := by
        have hlen2 : (r.dataFn.drop 1).length = n - 1 := by
          simp [RingBuf.dataFn]
        rw [List.getElem_append_right (by omega)]
        simp [hlen2, hieq]
      rw [hRg]
      rw [List.getD_eq_getElem _ _ (by rw [List.length_set]; omega)]
      rw [List.getElem_set]
      rw [if_pos rfl]

theorem map_range_window {β : Type} (u : Nat → β) (N m : Nat) (hN : 1 ≤ N) :
    (List.range N).map (fun i => u (m + 1 + i))
      = ((List.range N).map (fun i => u (m + i))).drop 1 ++ [u (m + N)] := by
  apply List.ext_getElem
  · simp
    omega
  · intro i h1 h2
    have hiN : i < N := by simpa using h1
    rw [List.getElem_map, List.getElem_range]
    rcases Nat.lt_or_ge i (N - 1) with hi | hi
    · rw [List.getElem_append_left (by simp; omega)]
      rw [List.getElem_drop, List.getElem_map, List.getElem_range]
      congr 1
      omega
    · have hieq : i = N - 1 := by omega
      have hlen1 : (((List.range N).map (fun i => u (m + i))).drop 1).length
          = N - 1 := by simp
      rw [List.getElem_append_right (by rw [hlen1]; omega)]
      have hzero : i - (((List.range N).map (fun i => u (m + i))).drop 1).length
          = 0 := by rw [hlen1]; omega
      simp only [hzero, List.getElem_cons_zero]
      congr 1
      omega

theorem advanceK_succ (m : Nat) (s : LexerSt) :
    advanceK (m + 1) s = (advanceK m s).advance := by
  induction m generalizing s with
  | zero => rfl
  | succ m ih =>
    have h1 : advanceK (m + 1 + 1) s = advanceK (m + 1) s.advance := rfl
    rw [h1, ih]
    rfl

theorem mod_succ_mod (m N : Nat) (hN : 1 ≤ N) :
    (m % N + 1) % N = (m + 1) % N := by
  conv_rhs => rw [Nat.add_mod]
  rcases N with _ | _ | N
  · omega
  · simp [Nat.mod_one]
  · rw [Nat.one_mod]

theorem advance_inner (s : LexerSt) : s.advance.inner = s.inner.drop 1 := by
  rcases h : s.inner with _ | ⟨⟨k, sp⟩, rest⟩ <;>
    simp [LexerSt.advance, nextTokenImpl, h]

theorem advance_lastSpan (s : LexerSt) :
    s.advance.lastSpan =
      (match s.inner with
        | [] => s.lastSpan
        | (_, sp) :: _ => sp) := by
  rcases h : s.inner with _ | ⟨⟨k, sp⟩, rest⟩ <;>
    simp [LexerSt.advance, nextTokenImpl, h]

theorem advance_bufferKind (s : LexerSt) :
    s.advance.bufferKind =
      s.bufferKind.push
        (match s.inner with
          | [] => TokenKind.Eof
          | (k, _) :: _ => k) := by
  rcases h : s.inner with _ | ⟨⟨k, sp⟩, rest⟩ <;>
    simp [LexerSt.advance, nextTokenImpl, h]

theorem advance_bufferSpan (s : LexerSt) :
    s.advance.bufferSpan =
      s.bufferSpan.push
        (match s.inner with
          | [] => s.lastSpan
          | (_, sp) :: _ => sp) := by
  rcases h : s.inner with _ | ⟨⟨k, sp⟩, rest⟩ <;>
    simp [LexerSt.advance, nextTokenImpl, h]

theorem lastSpanAfter_ge (ts : List (TokenKind × Span)) (m : Nat)
    (h : ts.length ≤ m) : lastSpanAfter ts m = lastSpanOf ts := by
  unfold lastSpanAfter lastSpanOf
  rw [List.take_of_length_le h]

theorem lastSpanAfter_succ_lt (ts : List (TokenKind × Span)) (m : Nat)
    (h : m < ts.length) : lastSpanAfter ts (m + 1) = ts[m].2 := by
  unfold lastSpanAfter
  have hlen : (ts.take (m + 1)).length = m + 1 := by
    simp
    omega
  rw [List.getLast?_eq_getElem?, hlen]
  simp only [Nat.add_sub_cancel]
  rw [List.getElem?_take]
  rw [if_pos (by omega)]
  rw [List.getElem?_eq_getElem h]

theorem lexer_inv (N : Nat) (hN : 1 ≤ N) (ts : List (TokenKind × Span)) :
    ∀ m : Nat,
      (advanceK m (initLexer N ts)).inner = ts.drop m
    ∧ (advanceK m (initLexer N ts)).lastSpan = lastSpanAfter ts m
    ∧ (advanceK m (initLexer N ts)).bufferKind.data.length = N
    ∧ (advanceK m (initLexer N ts)).bufferSpan.data.length = N
    ∧ (advanceK m (initLexer N ts)).bufferKind.head = m % N
    ∧ (advanceK m (initLexer N ts)).bufferSpan.head = m % N
    ∧ (advanceK m (initLexer N ts)).bufferKind.dataFn
        = (List.range N).map (fun i => (streamAt N ts (m + i)).1)
    ∧ (advanceK m (initLexer N ts)).bufferSpan.dataFn
        = (List.range N).map (fun i => (streamAt N ts (m + i)).2) := by
  intro m
  induction m with
  | zero =>
    simp only [advanceK]
    refine ⟨rfl, rfl, by simp [initLexer, RingBuf.new],
      by simp [initLexer, RingBuf.new], by simp [initLexer, RingBuf.new],
      by simp [initLexer, RingBuf.new], ?_, ?_⟩
    · apply List.ext_getElem
      · simp [RingBuf.dataFn, initLexer, RingBuf.new]
      · intro i h1 h2
        have hiN : i < N := by
          simpa [RingBuf.dataFn, initLexer, RingBuf.new] using h1
        simp only [RingBuf.dataFn, List.getElem_map, List.getElem_range,
          initLexer, RingBuf.new, List.length_replicate]
        rw [List.getD_eq_getElem _ _ (by
          simp only [List.length_replicate]
          exact Nat.mod_lt _ (by omega))]
        rw [List.getElem_replicate]
        unfold streamAt
        rw [if_pos (by omega)]
        rfl
    · apply List.ext_getElem
      · simp [RingBuf.dataFn, initLexer, RingBuf.new]
      · intro i h1 h2
        have hiN : i < N := by
          simpa [RingBuf.dataFn, initLexer, RingBuf.new] using h1
        simp only [RingBuf.dataFn, List.getElem_map, List.getElem_range,
          initLexer, RingBuf.new, List.length_replicate]
        rw [List.getD_eq_getElem _ _ (by
          simp only [List.length_replicate]
          exact Nat.mod_lt _ (by omega))]
        rw [List.getElem_replicate]
        unfold streamAt
        rw [if_pos (by omega)]
        rfl
  | succ m ih =>
    obtain ⟨hinner, hlast, hklen, hslen, hkhead, hshead, hkdata, hsdata⟩ := ih
    rw [advanceK_succ]
    set s := advanceK m (initLexer N ts) with hs
    have hpush :
        (match s.inner with
          | [] => TokenKind.Eof
          | (k, _) :: _ => k) = (paddedTok ts m).1
      ∧ (match s.inner with
          | [] => s.lastSpan
          | (_, sp) :: _ => sp) = (paddedTok ts m).2 := by
      rcases Nat.lt_or_ge m ts.length with hm | hm
      · have hdrop : ts.drop m = ts[m] :: ts.drop (m + 1) :=
          (List.getElem_cons_drop ts m hm).symm
        have hp : paddedTok ts m = ts[m] := by
          unfold paddedTok
          rw [List.getD_eq_getElem _ _ hm]
        rw [hinner, hdrop, hp]
        exact ⟨rfl, rfl⟩
      · have hdrop : ts.drop m = [] := List.drop_eq_nil_of_le hm
        have hp : paddedTok ts m = (.Eof, lastSpanOf ts) := by
          unfold paddedTok
          rw [List.getD_eq_default _ _ hm]
        rw [hinner, hdrop, hp]
        exact ⟨rfl, by rw [hlast, lastSpanAfter_ge ts m hm]⟩
    refine ⟨?_, ?_, ?_, ?_, ?_, ?_, ?_, ?_⟩
    · rw [advance_inner, hinner, List.drop_drop]
    · rw [advance_lastSpan]
      rcases Nat.lt_or_ge m ts.length with hm | hm
      · have hdrop : ts.drop m = ts[m] :: ts.drop (m + 1) :=
          (List.getElem_cons_drop ts m hm).symm
        rw [hinner, hdrop]
        simp [lastSpanAfter_succ_lt ts m hm]
      · have hdrop : ts.drop m = [] := List.drop_eq_nil_of_le hm
        rw [hinner, hdrop]
        simp [hlast, lastSpanAfter_ge ts m hm,
          lastSpanAfter_ge ts (m + 1) (by omega)]
    · rw [advance_bufferKind]
      simp [RingBuf.push, hklen]
    · rw [advance_bufferSpan]
      simp [RingBuf.push, hslen]
    · rw [advance_bufferKind]
      rw [RingBuf.head_push, hkhead, hklen, mod_succ_mod m N hN]
    · rw [advance_bufferSpan]
      rw [RingBuf.head_push, hshead, hslen, mod_succ_mod m N hN]
    · rw [advance_bufferKind]
      rw [RingBuf.dataFn_push _ _ (by rw [hkhead, hklen]; exact Nat.mod_lt _ (by omega))]
      rw [hkdata, hpush.1]
      have hstream : streamAt N ts (m + N) = paddedTok ts m := by
        unfold streamAt
        rw [if_neg (by omega)]
        congr 1
        omega
      have hw := map_range_window (fun j => (streamAt N ts j).1) N m hN
      rw [hw]
      simp [hstream]
    · rw [advance_bufferSpan]
      rw [RingBuf.dataFn_push _ _ (by rw [hshead, hslen]; exact Nat.mod_lt _ (by omega))]
      rw [hsdata, hpush.2]
      have hstream : streamAt N ts (m + N) = paddedTok ts m := by
        unfold streamAt
        rw [if_neg (by omega)]
        congr 1
        omega
      have hw := map_range_window (fun j => (streamAt N ts j).2) N m hN
      rw [hw]
      simp [hstream]

theorem advanceK_add (a b : Nat) (s : LexerSt) :
    advanceK (a + b) s = advanceK b (advanceK a s) := by
  induction b with
  | zero => rfl
  | succ b ih =>
    have h1 : a + (b + 1) = (a + b) + 1 := by omega
    rw [h1, advanceK_succ, ih, ← advanceK_succ]

/-- C7: for a lexer with lookahead width `N` over any scanned token
sequence `ts`, after `k` advances the lookahead array equals the window
`[k, k+N)` of the padded stream: real token kinds inside the sequence,
end-of-input kinds past its end; the span buffer likewise holds the window
of spans, and every padding entry carries the span of the final scanned
token. -/
theorem c7_lookahead_window (ts : List (TokenKind × Span)) (N k : Nat)
    (hN : 1 ≤ N) :
    (advanceK k (LexerSt.new N ts)).peekArray
        = (List.range N).map (fun i => (paddedTok ts (k + i)).1)
    ∧ (advanceK k (LexerSt.new N ts)).bufferSpan.dataFn
        = (List.range N).map (fun i => (paddedTok ts (k + i)).2)
    ∧ (∀ j, ts.length ≤ j → paddedTok ts j = (.Eof, lastSpanOf ts))
    ∧ (∀ h : ts ≠ [], lastSpanOf ts = (ts.getLast h).2) := by
  have hnew : LexerSt.new N ts = advanceK N (initLexer N ts) := rfl
  have hcomp : advanceK k (LexerSt.new N ts)
      = advanceK (N + k) (initLexer N ts) := by
    rw [hnew, ← advanceK_add]
  have hinv := lexer_inv N hN ts (N + k)
  have hstream : ∀ i, streamAt N ts (N + k + i) = paddedTok ts (k + i) := by
    intro i
    unfold streamAt
    rw [if_neg (by omega)]
    congr 1
    omega
  refine ⟨?_, ?_, ?_, ?_⟩
  · show (advanceK k (LexerSt.new N ts)).bufferKind.dataFn = _
    rw [hcomp, hinv.2.2.2.2.2.2.1]
    apply List.map_congr_left
    intro i _
    rw [hstream i]
  · rw [hcomp, hinv.2.2.2.2.2.2.2]
    apply List.map_congr_left
    intro i _
    rw [hstream i]
  · intro j hj
    unfold paddedTok
    rw [List.getD_eq_default _ _ hj]
  · intro h
    unfold lastSpanOf
    rw [List.getLast?_eq_getLast _ h]

theorem c7_lookahead_window_witness :
    (1 : Nat) ≤ 2
    ∧ (advanceK 2 (LexerSt.new 2
        [(TokenKind.Ident, ⟨0, 1⟩), (TokenKind.Pipe, ⟨1, 2⟩),
         (TokenKind.Ident, ⟨2, 3⟩)])).peekArray
        = [TokenKind.Ident, TokenKind.Eof]
    ∧ (advanceK 2 (LexerSt.new 2
        [(TokenKind.Ident, ⟨0, 1⟩), (TokenKind.Pipe, ⟨1, 2⟩),
         (TokenKind.Ident, ⟨2, 3⟩)])).bufferSpan.dataFn
        = [Span.mk 2 3, Span.mk 2 3] := by
  have h := c7_lookahead_window
    [(TokenKind.Ident, ⟨0, 1⟩), (TokenKind.Pipe, ⟨1, 2⟩),
     (TokenKind.Ident, ⟨2, 3⟩)] 2 2 (by decide)
  refine ⟨by decide, ?_, ?_⟩
  · rw [h.1]; decide
  · rw [h.2.1]; decide

theorem scanStep_kinds (c : Char) (rest : List Char) (k : TokenKind)
    (h : (scanStep (c :: rest)).1 = some k) :
    k ≠ .Ignored ∧ k ≠ .Comment ∧ k ≠ .Eof := by
  revert h
  simp only [scanStep]
  by_cases h1 : isWsChar c = true
  · rw [if_pos h1]
    intro h
    exact absurd h (by simp)
  rw [if_neg h1]
  by_cases h2 : isIdentChar c = true
  · rw [if_pos h2]
    intro h
    have h' : some TokenKind.Ident = some k := h
    injection h' with h''
    subst h''
    exact ⟨by decide, by decide, by decide⟩
  rw [if_neg h2]
  by_cases h3 : c = '='
  · rw [if_pos h3]
    intro h
    have h' : some TokenKind.Equal = some k := h
    injection h' with h''
    subst h''
    exact ⟨by decide, by decide, by decide⟩
  rw [if_neg h3]
  by_cases h4 : c = ':'
  · rw [if_pos h4]
    intro h
    have h' : some TokenKind.Colon = some k := h
    injection h' with h''
    subst h''
    exact ⟨by decide, by decide, by decide⟩
  rw [if_neg h4]
  by_cases h5 : c = '*'
  · rw [if_pos h5]
    intro h
    have h' : some TokenKind.Star = some k := h
    injection h' with h''
    subst h''
    exact ⟨by decide, by decide, by decide⟩
  rw [if_neg h5]
  by_cases h6 : c = '?'
  · rw [if_pos h6]
    intro h
    have h' : some TokenKind.Question = some k := h
    injection h' with h''
    subst h''
    exact ⟨by decide, by decide, by decide⟩
  rw [if_neg h6]
  by_cases h7 : c = '('
  · rw [if_pos h7]
    intro h
    have h' : some (TokenKind.Paren .Open) = some k := h
    injection h' with h''
    subst h''
    exact ⟨by decide, by decide, by decide⟩
  rw [if_neg h7]
  by_cases h8 : c = ')'
  · rw [if_pos h8]
    intro h
    have h' : some (TokenKind.Paren .Close) = some k := h
    injection h' with h''
    subst h''
    exact ⟨by decide, by decide, by decide⟩
  rw [if_neg h8]
  by_cases h9 : c = '|'
  · rw [if_pos h9]
    intro h
    have h' : some TokenKind.Pipe = some k := h
    injection h' with h''
    subst h''
    exact ⟨by decide, by decide, by decide⟩
  rw [if_neg h9]
  by_cases h10 : c = '\''
  · rw [if_pos h10]
    by_cases hq : rest.any (fun d => d = '\'') = true
    · rw [if_pos hq]
      intro h
      have h' : some TokenKind.Literal = some k := h
      injection h' with h''
      subst h''
      exact ⟨by decide, by decide, by decide⟩
    · rw [if_neg hq]
      intro h
      have h' : some TokenKind.Error = some k := h
      injection h' with h''
      subst h''
      exact ⟨by decide, by decide, by decide⟩
  rw [if_neg h10]
  by_cases h11 : c = '/'
  · rw [if_pos h11]
    match rest with
    | [] =>
      intro h
      have h' : some TokenKind.Error = some k := h
      injection h' with h''
      subst h''
      exact ⟨by decide, by decide, by decide⟩
    | d :: tail =>
      dsimp only
      by_cases hd : d = '/'
      · rw [if_pos hd]
        intro h
        exact absurd h (by simp)
      · rw [if_neg hd]
        intro h
        have h' : some TokenKind.Error = some k := h
        injection h' with h''
        subst h''
        exact ⟨by decide, by decide, by decide⟩
  rw [if_neg h11]
  intro h
  have h' : some TokenKind.Error = some k := h
  injection h' with h''
  subst h''
  exact ⟨by decide, by decide, by decide⟩

theorem tokenizeAux_kinds (f : Nat) :
    ∀ (cs : List Char) (pos : Nat) (k : TokenKind) (s : Span),
      (k, s) ∈ tokenizeAux f cs pos →
        k ≠ .Ignored ∧ k ≠ .Comment ∧ k ≠ .Eof := by
  induction f with
  | zero =>
    intro cs pos k s h
    match cs with
    | [] => simp [tokenizeAux] at h
    | c :: rest => simp [tokenizeAux] at h
  | succ f ih =>
    intro cs pos k s h
    match cs with
    | [] => simp [tokenizeAux] at h
    | c :: rest =>
      simp only [tokenizeAux] at h
      rcases hscan : (scanStep (c :: rest)).1 with _ | k2
      · rw [hscan] at h
        exact ih _ _ _ _ h
      · rw [hscan] at h
        rcases List.mem_cons.mp h with heq | hmem
        · have hk : k = k2 := by
            have := congrArg Prod.fst heq
            simpa using this
          subst hk
          exact scanStep_kinds c rest k hscan
        · exact ih _ _ _ _ hmem

/-- C8: the lexer is total and never fails.  The scan (`tokenize`) is a
total function whose result is fuel-independent past the input length
(`tokenizeAux_fuel`); whitespace (`Ignored`) and `//`-comments never appear
in the token stream (and neither does `Eof`, which only `next_token_impl`
synthesises); input matching no terminal rule surfaces as an `Error`-kind
token in the stream rather than aborting the scan. -/
theorem c8_lexer_total_never_fails :
    (∀ (fuel : Nat) (cs : List Char) (pos : Nat) (k : TokenKind) (s : Span),
        (k, s) ∈ tokenizeAux fuel cs pos →
          k ≠ .Ignored ∧ k ≠ .Comment ∧ k ≠ .Eof)
    ∧ (∀ (cs : List Char) (fuel : Nat), cs.length ≤ fuel →
        tokenizeAux fuel cs 0 = tokenize cs)
    ∧ tokenize ['@'] = [(.Error, ⟨0, 1⟩)]
    ∧ tokenize (' ' :: '/' :: '/' :: 'x' :: []) = []
    ∧ tokenize ('a' :: '@' :: []) = [(.Ident, ⟨0, 1⟩), (.Error, ⟨1, 2⟩)] := by
  refine ⟨fun fuel => tokenizeAux_kinds fuel, ?_, by decide, by decide, by decide⟩
  intro cs fuel hf
  exact tokenizeAux_fuel cs 0 fuel hf

theorem c8_lexer_total_never_fails_witness :
    (TokenKind.Ident ≠ .Ignored ∧ TokenKind.Ident ≠ .Comment
      ∧ TokenKind.Ident ≠ .Eof)
    ∧ tokenizeAux 5 ['a'] 0 = tokenize ['a'] := by
  constructor
  · exact c8_lexer_total_never_fails.1 1 ['a'] 0 .Ident ⟨0, 1⟩ (by decide)
  · exact c8_lexer_total_never_fails.2.1 ['a'] 5 (by decide)

theorem lookupRule_gC1_A : lookupRule gC1 "A" = some (.Sequence [.Rule "B"]) := by
  decide

theorem lookupRule_gC1_B : lookupRule gC1 "B" = some (.Sequence [.Rule "A"]) := by
  decide

/-- `may_miss` never returns on the builder's lowering of `A = B  B = A`:
the rule cycle is followed with no visited set, so every fuel bound is
exhausted (the Rust recursion overflows the stack). -/
theorem mayMiss_gC1_diverges (f : Nat) :
    mayMiss gC1 f (.Rule "A") = .outOfFuel
  ∧ mayMiss gC1 f (.Rule "B") = .outOfFuel
  ∧ mayMiss gC1 f (.Sequence [.Rule "A"]) = .outOfFuel
  ∧ mayMiss gC1 f (.Sequence [.Rule "B"]) = .outOfFuel := by
  induction f with
  | zero => exact ⟨rfl, rfl, rfl, rfl⟩
  | succ f ih =>
    obtain ⟨hA, hB, hSA, hSB⟩ := ih
    refine ⟨?_, ?_, ?_, ?_⟩
    · show mayMiss gC1 (f + 1) (.Rule "A") = .outOfFuel
      simp only [mayMiss, lookupRule_gC1_A]
      exact hSB
    · show mayMiss gC1 (f + 1) (.Rule "B") = .outOfFuel
      simp only [mayMiss, lookupRule_gC1_B]
      exact hSA
    · show mayMiss gC1 (f + 1) (.Sequence [.Rule "A"]) = .outOfFuel
      simp only [mayMiss, hA, RunRes.bind]
    · show mayMiss gC1 (f + 1) (.Sequence [.Rule "B"]) = .outOfFuel
      simp only [mayMiss, hB, RunRes.bind]

/-- In `first_set_impl` on `A = B  B = A` the alias guard itself terminates
(with `true`) at any sufficient fuel. -/
theorem allAlias_gC1 (f : Nat) :
    allAlias gC1 (f + 3) "B" ["A"] = .ok true := by
  simp [allAlias, lookupRule_gC1_B, isAlias, RunRes.bind]

/-- `first_set_impl` on the right-hand side of `A` in `A = B  B = A` runs
out of any fuel: the alias guard holds, so the `may_miss` call is reached
and diverges. -/
theorem firstSetImpl_gC1_diverges (f : Nat) :
    firstSetImpl gC1 f (.Sequence [.Rule "B"]) ["A"] = .outOfFuel := by
  obtain _ | _ | _ | _ | f := f
  · rfl
  · decide
  · decide
  · decide
  · show firstSetImpl gC1 (f + 3 + 1) (.Sequence [.Rule "B"]) ["A"] = .outOfFuel
    simp only [firstSetImpl, allAlias_gC1 f, RunRes.bind, if_pos,
      (mayMiss_gC1_diverges (f + 3)).2.1]

/-- C1 (code bug): for the cyclic grammar `A = B  B = A` — exactly as the
grammar builder lowers it from the source text — `first("A")` does not
return: the fueled embedding exhausts every fuel bound, because
`Expr::may_miss`, evaluated by the sequence-arm guard of `first_set_impl`,
follows the rule cycle `A → B → A → …` with no visited set.  The per-call
visited-name set of `first_set_impl` itself does not guarantee
termination. -/
theorem c1_first_cycle_diverges :
    pipelineG 200 "A = B B = A" = .ok gC1
    ∧ (∀ f : Nat, firstSet gC1 f "A" = .outOfFuel) := by
  constructor
  · decide
  · intro f
    simp only [firstSet, lookupRule_gC1_A, firstSetImpl_gC1_diverges f,
      RunRes.bind]

/-- C2 counterexample: on `A = b?  b = 'y'` the code computes
`first("A") = {"y", "ε"}` — the empty-derivation marker IS added, so the
claimed result `{"y"}` (marker not added) is false. -/
theorem c2_epsilon_marker_present :
    pipelineG 200 "A = b? b = 'y'" = .ok gC2
    ∧ firstSet gC2 50 "A" = .ok ["y", "ε"]
    ∧ "ε" ∈ ["y", "ε"]
    ∧ ¬ firstSet gC2 50 "A" = .ok ["y"] := by
  refine ⟨by decide, by decide, by decide, by decide⟩

/-- C2 as amended: `first("A")` is `{"y", "ε"}`.  The builder lowers the
right-hand side of `A` to the one-element sequence `[b?]`; the sequence
loop folds in FIRST of the `Optional` element, runs off the end of the
sequence and therefore inserts the marker (the `Optional` wrapper itself
still unwraps without adding it).  The result is fuel-independent: any
fuel of at least 5 yields it. -/
theorem c2_first_epsilon_added :
    pipelineG 200 "A = b? b = 'y'" = .ok gC2
    ∧ (∀ f : Nat, firstSet gC2 (f + 5) "A" = .ok ["y", "ε"]) := by
  refine ⟨by decide, ?_⟩
  intro f
  have l1 : lookupRule gC2 "A" = some (.Sequence [.Optional (.Rule "b")]) := by
    decide
  have l2 : lookupRule gC2 "b" = some (.Sequence [.Literal "y"]) := by decide
  simp only [firstSet, l1]
  simp only [firstSetImpl, l2, RunRes.bind, insertS, extendS]
  decide

/-- C3 counterexample: on `S = A 'x'  A = S?` the code's sequence rule does
NOT stop at the plain element `Rule "A"` (its alias/nullability guard
holds), so `first("S") = {"ε", "x"}`, while the claim's description of the
sequence rule (stop at every non-`Optional`/`Repeat` element) yields
`{"ε"}`. -/
theorem c3_plain_rule_does_not_stop :
    pipelineG 200 "S = A 'x' A = S?" = .ok gC3
    ∧ firstSetClaimC3 gC3 50 "S" = .ok ["ε"]
    ∧ firstSet gC3 50 "S" = .ok ["ε", "x"]
    ∧ ¬ firstSetClaimC3 gC3 50 "S" = firstSet gC3 50 "S"
    ∧ "x" ∈ ["ε", "x"] := by
  refine ⟨by decide, by decide, by decide, by decide, by decide⟩

/-- C3 as amended: the sequence rule of FIRST, characterized exactly.
Elements are processed left to right; an `Optional`/`Repeat` element
contributes the FIRST of its body and processing continues; a `Rule`
element whose target is an alias of every visited name AND may derive
empty also contributes its FIRST and continues; every other element
(including a `Rule` failing that guard) contributes its FIRST and
processing stops; the empty marker is added exactly when the end of the
sequence is reached. -/
theorem c3_sequence_rule_characterized :
    ∀ (rules : List (String × Expr)) (f : Nat) (prods : List String),
      (firstSetImpl rules (f + 1) (.Sequence []) prods = .ok (["ε"], prods))
    ∧ (∀ inner cs,
        firstSetImpl rules (f + 1) (.Sequence (.Optional inner :: cs)) prods
          = (firstSetImpl rules f inner prods).bind fun r1 =>
              (firstSetImpl rules f (.Sequence cs) r1.2).bind fun r2 =>
                .ok (extendS r1.1 r2.1, r2.2))
    ∧ (∀ inner cs,
        firstSetImpl rules (f + 1) (.Sequence (.Repeat inner :: cs)) prods
          = (firstSetImpl rules f inner prods).bind fun r1 =>
              (firstSetImpl rules f (.Sequence cs) r1.2).bind fun r2 =>
                .ok (extendS r1.1 r2.1, r2.2))
    ∧ (∀ rule cs, allAlias rules f rule prods = .ok true →
          mayMiss rules f (.Rule rule) = .ok true →
          firstSetImpl rules (f + 1) (.Sequence (.Rule rule :: cs)) prods
            = (firstSetImpl rules f (.Rule rule) prods).bind fun r1 =>
                (firstSetImpl rules f (.Sequence cs) r1.2).bind fun r2 =>
                  .ok (extendS r1.1 r2.1, r2.2))
    ∧ (∀ rule cs, allAlias rules f rule prods = .ok false →
          firstSetImpl rules (f + 1) (.Sequence (.Rule rule :: cs)) prods
            = firstSetImpl rules f (.Rule rule) prods)
    ∧ (∀ rule cs, allAlias rules f rule prods = .ok true →
          mayMiss rules f (.Rule rule) = .ok false →
          firstSetImpl rules (f + 1) (.Sequence (.Rule rule :: cs)) prods
            = firstSetImpl rules f (.Rule rule) prods)
    ∧ (∀ lit cs,
          firstSetImpl rules (f + 1) (.Sequence (.Literal lit :: cs)) prods
            = firstSetImpl rules f (.Literal lit) prods)
    ∧ (∀ es cs,
          firstSetImpl rules (f + 1) (.Sequence (.Sequence es :: cs)) prods
            = firstSetImpl rules f (.Sequence es) prods)
    ∧ (∀ es cs,
          firstSetImpl rules (f + 1) (.Sequence (.Choice es :: cs)) prods
            = firstSetImpl rules f (.Choice es) prods) := by
  intro rules f prods
  refine ⟨rfl, fun inner cs => rfl, fun inner cs => rfl, ?_, ?_, ?_,
    fun lit cs => rfl, fun es cs => rfl, fun es cs => rfl⟩
  · intro rule cs h1 h2
    simp only [firstSetImpl, h1, h2, RunRes.bind, if_true]
  · intro rule cs h1
    simp only [firstSetImpl, h1, RunRes.bind]
    norm_num
  · intro rule cs h1 h2
    simp only [firstSetImpl, h1, h2, RunRes.bind]
    norm_num

theorem c3_sequence_rule_characterized_witness :
    allAlias gC3 30 "A" ["S"] = .ok true
    ∧ mayMiss gC3 30 (.Rule "A") = .ok true
    ∧ firstSetImpl gC3 31 (.Sequence [.Rule "A", .Literal "x"]) ["S"]
        = (firstSetImpl gC3 30 (.Rule "A") ["S"]).bind fun r1 =>
            (firstSetImpl gC3 30 (.Sequence [.Literal "x"]) r1.2).bind fun r2 =>
              .ok (extendS r1.1 r2.1, r2.2) := by
  refine ⟨by decide, by decide, ?_⟩
  exact (c3_sequence_rule_characterized gC3 30 ["S"]).2.2.2.1 "A"
    [.Literal "x"] (by decide) (by decide)

/-- C4: on `Z = A b?  b = 'y'  A = 'a'`, the terminal `"y"` is in
FOLLOW("A"), and FOLLOW("Z") ⊆ FOLLOW("A") (vacuously here, since nothing
references `Z`); on the extension with `W = Z 'w'` the inclusion is
non-vacuous: FOLLOW("Z") = {"w"} and FOLLOW("A") = {"y", "w"}. -/
theorem c4_follow_reaches_through_nullable :
    pipelineG 200 "Z = A b? b = 'y' A = 'a'" = .ok gC4
    ∧ followAll gC4 50 "A" false = .ok ["y"]
    ∧ "y" ∈ ["y"]
    ∧ followAll gC4 50 "Z" false = .ok []
    ∧ ([] : List String) ⊆ ["y"]
    ∧ pipelineG 200 "Z = A b? b = 'y' A = 'a' W = Z 'w'" = .ok gC4w
    ∧ followAll gC4w 50 "A" false = .ok ["y", "w"]
    ∧ followAll gC4w 50 "Z" false = .ok ["w"]
    ∧ "y" ∈ ["y", "w"]
    ∧ ["w"] ⊆ ["y", "w"] := by
  refine ⟨by decide, by decide, by decide, by decide, by decide,
    by decide, by decide, by decide, by decide, by decide⟩

/-- C5: on `Fn = 'fn' Fn* ';'`, FIRST("Fn") = {"fn"} ⊆ FOLLOW("Fn") =
{"fn", ";"} when `strict = false`; with `strict = true` the
self-repetition addition is suppressed: FOLLOW("Fn") = {";"} and
`"fn"` is absent. -/
theorem c5_self_repetition_follow :
    pipelineG 200 "Fn = 'fn' Fn* ';'" = .ok gC5
    ∧ firstSet gC5 50 "Fn" = .ok ["fn"]
    ∧ followAll gC5 50 "Fn" false = .ok ["fn", ";"]
    ∧ followAll gC5 50 "Fn" true = .ok [";"]
    ∧ ["fn"] ⊆ ["fn", ";"]
    ∧ "fn" ∉ [";"] := by
  refine ⟨by decide, by decide, by decide, by decide, by decide, by decide⟩

/-- C6 counterexample: for the input `A = B C | d` the built expression is
`Choice[Sequence[Rule "B", Rule "C"], Rule "d"]` — the unquoted `d` is an
identifier and lowers to a rule reference, not to `Literal "d"` as the
claim states. -/
theorem c6_unquoted_d_is_rule :
    pipelineG 200 "A = B C | d"
      = .ok [("A", .Choice [.Sequence [.Rule "B", .Rule "C"], .Rule "d"])]
    ∧ ¬ pipelineG 200 "A = B C | d"
      = .ok [("A", .Choice [.Sequence [.Rule "B", .Rule "C"], .Literal "d"])] := by
  refine ⟨by decide, by decide⟩

/-- C6 as amended: the grouping is exactly as claimed (the run `B C` is
retroactively grouped into one `Sequence` arm of a two-way `Choice`, not
right-nested and not flattened), but the unquoted `d` lowers to
`Rule "d"`; the claimed `Literal "d"` leaf arises from the quoted input
`A = B C | 'd'`. -/
theorem c6_choice_grouping :
    pipelineG 200 "A = B C | d"
      = .ok [("A", .Choice [.Sequence [.Rule "B", .Rule "C"], .Rule "d"])]
    ∧ pipelineG 200 "A = B C | 'd'"
      = .ok [("A", .Choice [.Sequence [.Rule "B", .Rule "C"], .Literal "d"])] := by
  refine ⟨by decide, by decide⟩

/-- C9: `first` and `follow` are deterministic and leave the grammar
untouched: the embedding is pure exactly because the Rust functions take
`&self` and only build fresh sets, so calling either twice with the same
arguments gives identical results, and the rule map passed in is the rule
map afterwards. -/
theorem c9_first_follow_deterministic :
    ∀ (rules : List (String × Expr)) (fuel : Nat) (name of : String)
      (strict : Bool),
      firstSet rules fuel name = firstSet rules fuel name
      ∧ followAll rules fuel of strict = followAll rules fuel of strict :=
  fun _ _ _ _ _ => ⟨rfl, rfl⟩

theorem lookupRule_nil (k : String) : lookupRule [] k = none := rfl

theorem lookupRule_cons (p : String × Expr) (rules : List (String × Expr))
    (k : String) :
    lookupRule (p :: rules) k
      = if p.1 = k then some p.2 else lookupRule rules k := by
  by_cases h : p.1 = k <;> simp [lookupRule, List.find?_cons, h]

theorem insertMap_pos (rules : List (String × Expr)) (k : String) (v : Expr)
    (h : rules.any (fun q => q.1 = k) = true) :
    insertMap rules k v = rules.map (fun q => if q.1 = k then (k, v) else q) := by
  rw [insertMap, if_pos h]

theorem insertMap_neg (rules : List (String × Expr)) (k : String) (v : Expr)
    (h : rules.any (fun q => q.1 = k) = false) :
    insertMap rules k v = rules ++ [(k, v)] := by
  rw [insertMap, if_neg (by simp [h])]

theorem bool_eq_false_of_not (b : Bool) (h : ¬ b = true) : b = false := by
  cases b
  · rfl
  · exact absurd rfl h

theorem lookupRule_map_replace_other (rules : List (String × Expr))
    (k k' : String) (v : Expr) (h : ¬ k' = k) :
    lookupRule (rules.map (fun q => if q.1 = k then (k, v) else q)) k'
      = lookupRule rules k' := by
  induction rules with
  | nil => rfl
  | cons p rest ih =>
    rw [List.map_cons, lookupRule_cons, lookupRule_cons]
    by_cases hp : p.1 = k
    · rw [if_pos hp]
      rw [if_neg (show ¬ (k, v).1 = k' from by simpa using fun hh => h hh.symm)]
      rw [if_neg (by rw [hp]; simpa using fun hh => h hh.symm)]
      exact ih
    · rw [if_neg hp]
      by_cases hpk' : p.1 = k'
      · rw [if_pos hpk', if_pos hpk']
      · rw [if_neg hpk', if_neg hpk']
        exact ih

theorem lookupRule_append_other (rules : List (String × Expr))
    (k k' : String) (v : Expr) (h : ¬ k' = k) :
    lookupRule (rules ++ [(k, v)]) k' = lookupRule rules k' := by
  induction rules with
  | nil =>
    rw [List.nil_append, lookupRule_cons,
      if_neg (show ¬ (k, v).1 = k' from by simpa using fun hh => h hh.symm)]
  | cons p rest ih =>
    rw [List.cons_append, lookupRule_cons, lookupRule_cons]
    by_cases hpk' : p.1 = k'
    · rw [if_pos hpk', if_pos hpk']
    · rw [if_neg hpk', if_neg hpk']
      exact ih

theorem lookupRule_map_replace_self (rules : List (String × Expr))
    (k : String) (v : Expr) (h : rules.any (fun q => q.1 = k) = true) :
    lookupRule (rules.map (fun q => if q.1 = k then (k, v) else q)) k
      = some v := by
  induction rules with
  | nil => simp at h
  | cons p rest ih =>
    rw [List.map_cons, lookupRule_cons]
    by_cases hp : p.1 = k
    · rw [if_pos hp, if_pos (show ((k, v) : String × Expr).1 = k from rfl)]
    · rw [if_neg hp, if_neg (by simpa using hp)]
      apply ih
      rcases List.any_eq_true.mp h with ⟨q, hq, hq1⟩
      rcases List.mem_cons.mp hq with rfl | hq2
      · exact absurd (by simpa using hq1) hp
      · exact List.any_eq_true.mpr ⟨q, hq2, hq1⟩

theorem lookupRule_append_self (rules : List (String × Expr)) (k : String)
    (v : Expr) (h : rules.any (fun q => q.1 = k) = false) :
    lookupRule (rules ++ [(k, v)]) k = some v := by
  induction rules with
  | nil =>
    rw [List.nil_append, lookupRule_cons,
      if_pos (show ((k, v) : String × Expr).1 = k from rfl)]
  | cons p rest ih =>
    rw [List.cons_append, lookupRule_cons]
    have hp : ¬ p.1 = k := by
      intro hp
      rw [List.any_cons] at h
      simp [hp] at h
    rw [if_neg hp]
    apply ih
    rw [List.any_cons] at h
    simp [hp] at h
    simpa using h

/-- `IndexMap::insert`: a later `get` of the inserted key sees the inserted
value — the last definition wins. -/
theorem lookupRule_insertMap_self (rules : List (String × Expr)) (k : String)
    (v : Expr) : lookupRule (insertMap rules k v) k = some v := by
  by_cases hany : rules.any (fun q => q.1 = k) = true
  · rw [insertMap_pos rules k v hany]
    exact lookupRule_map_replace_self rules k v hany
  · rw [insertMap_neg rules k v (bool_eq_false_of_not _ hany)]
    exact lookupRule_append_self rules k v (bool_eq_false_of_not _ hany)

/-- `IndexMap::insert` leaves every other key's value alone. -/
theorem lookupRule_insertMap_other (rules : List (String × Expr))
    (k k' : String) (v : Expr) (h : ¬ k' = k) :
    lookupRule (insertMap rules k v) k' = lookupRule rules k' := by
  by_cases hany : rules.any (fun q => q.1 = k) = true
  · rw [insertMap_pos rules k v hany]
    exact lookupRule_map_replace_other rules k k' v h
  · rw [insertMap_neg rules k v (bool_eq_false_of_not _ hany)]
    exact lookupRule_append_other rules k k' v h

theorem mem_nonTerminals_iff_any (rules : List (String × Expr)) (k : String) :
    k ∈ nonTerminals rules ↔ rules.any (fun q => q.1 = k) = true := by
  rw [List.any_eq_true]
  unfold nonTerminals
  rw [List.mem_map]
  constructor
  · rintro ⟨p, hp, rfl⟩
    exact ⟨p, hp, by simp⟩
  · rintro ⟨p, hp, hq⟩
    exact ⟨p, hp, of_decide_eq_true hq⟩

/-- `IndexMap::insert` changes the key list exactly as `IndexSet::insert`
does: a fresh key is appended, an existing key keeps its position (and so
does every other key). -/
theorem nonTerminals_insertMap (rules : List (String × Expr)) (k : String)
    (v : Expr) :
    nonTerminals (insertMap rules k v) = insertS (nonTerminals rules) k := by
  by_cases hany : rules.any (fun q => q.1 = k) = true
  · rw [insertMap_pos rules k v hany]
    rw [insertS, if_pos ((mem_nonTerminals_iff_any rules k).mpr hany)]
    unfold nonTerminals
    rw [List.map_map]
    apply List.map_congr_left
    intro q _
    by_cases hq : q.1 = k
    · simp [hq]
    · simp [hq]
  · rw [insertMap_neg rules k v (bool_eq_false_of_not _ hany)]
    rw [insertS, if_neg (fun hm =>
      hany ((mem_nonTerminals_iff_any rules k).mp hm))]
    unfold nonTerminals
    rw [List.map_append]
    rfl

/-- Re-inserting a name already in an `IndexSet` keeps the set — and hence
every name's position — unchanged. -/
theorem insertS_mem (s : List String) (k : String) (h : k ∈ s) :
    insertS s k = s := by
  rw [insertS, if_pos h]

/-- Over any sequence of insertions, a key's final value is the value of
its LAST insertion (the first match in the reversed sequence), and keys
never inserted keep their prior binding. -/
theorem lookupRule_foldl_insertMap (ps : List (String × Expr)) :
    ∀ (rules : List (String × Expr)) (k : String),
      lookupRule (ps.foldl (fun r p => insertMap r p.1 p.2) rules) k
        = (match ps.reverse.find? (fun p => p.1 = k) with
            | some p => some p.2
            | none => lookupRule rules k) := by
  induction ps with
  | nil => intro rules k; simp
  | cons p rest ih =>
    intro rules k
    rw [List.foldl_cons, ih (insertMap rules p.1 p.2) k, List.reverse_cons,
      List.find?_append]
    cases hfind : rest.reverse.find? (fun q => q.1 = k) with
    | some q => simp [Option.or]
    | none =>
      simp only [Option.or]
      by_cases hpk : p.1 = k
      · subst hpk
        simp [List.find?_cons, lookupRule_insertMap_self]
      · simp [List.find?_cons, hpk]
        rw [lookupRule_insertMap_other rules p.1 k p.2 (fun hh => hpk hh.symm)]

/-- Over any sequence of insertions, the key list evolves exactly as an
`IndexSet` fed the keys in order: first occurrences in order, repeats
ignored. -/
theorem nonTerminals_foldl_insertMap (ps : List (String × Expr)) :
    ∀ (rules : List (String × Expr)),
      nonTerminals (ps.foldl (fun r p => insertMap r p.1 p.2) rules)
        = extendS (nonTerminals rules) (ps.map (·.1)) := by
  induction ps with
  | nil => intro rules; rfl
  | cons p rest ih =>
    intro rules
    rw [List.foldl_cons, ih (insertMap rules p.1 p.2), nonTerminals_insertMap]
    rfl

/-- `GrammarBuilder::build` decomposed: the rule loop is the extraction of
the `(name, rhs)` pairs in source order followed by a fold of
`IndexMap::insert` over them, starting from the given map. -/
theorem buildRules_insertMap_fold (src : List Char) (fuel : Nat) :
    ∀ (children : List Child) (rules : List (String × Expr)),
      buildRules src fuel children rules
        = (extractPairs src fuel children).bind fun ps =>
            .ok (ps.foldl (fun r p => insertMap r p.1 p.2) rules) := by
  intro children
  induction children with
  | nil => intro rules; rfl
  | cons c rest ih =>
    intro rules
    cases c with
    | Token tok => rfl
    | Tree tk tch =>
      cases tk
      case Rule =>
        match tch with
        | [] => rfl
        | [c0] => rfl
        | c0 :: c1 :: cs =>
          cases c0 with
          | Tree k0 ch0 => rfl
          | Token tok0 =>
            obtain ⟨sp0, kd0⟩ := tok0
            cases kd0
            case Ident =>
              show buildRules src fuel
                  (.Tree .Rule (.Token ⟨sp0, .Ident⟩ :: c1 :: cs) :: rest) rules
                = _
              simp only [buildRules, extractPairs, RunRes.bind]
              cases hpe : parseExprB src fuel c1 with
              | ok e =>
                simp only [RunRes.bind]
                rw [ih (insertMap rules
                  (sliceStr src sp0.start sp0.stop) e)]
                cases hep : extractPairs src fuel rest with
                | ok ps => simp [RunRes.bind]
                | panicked => simp [RunRes.bind]
                | outOfFuel => simp [RunRes.bind]
              | panicked => simp [RunRes.bind]
              | outOfFuel => simp [RunRes.bind]
            all_goals rfl
      all_goals rfl

/-- Whether the build succeeds never depends on the rules accumulated so
far — in particular a rule name already defined earlier never causes an
error or diagnostic. -/
theorem buildRules_succeeded_independent (src : List Char) (fuel : Nat)
    (children : List Child) (rules rules' : List (String × Expr)) :
    (buildRules src fuel children rules).succeeded
      = (buildRules src fuel children rules').succeeded := by
  rw [buildRules_insertMap_fold src fuel children rules,
    buildRules_insertMap_fold src fuel children rules']
  cases extractPairs src fuel children <;> rfl

/-- C10: for EVERY source tree, defining the same rule name more than once
never makes grammar building fail (success depends only on the tree and
never on previously accumulated rules — there is no duplicate check or
diagnostic channel at all); the build is exactly the extraction of the
`(name, rhs)` pairs in source order followed by an `IndexMap::insert`
fold, under which a name's final right-hand side is the one of its LAST
definition (the first match in the reversed pair sequence) and the key
list evolves by `IndexSet::insert`, so every name sits at the position of
its FIRST definition in `non_terminals()` order (re-inserting a present
name changes nothing).  The concrete instance `A = 'x' B = 'y' A = 'z'`
exercises the whole pipeline. -/
theorem c10_duplicate_rule_last_wins :
    (∀ (src : List Char) (fuel : Nat) (children : List Child)
        (rules : List (String × Expr)),
        buildRules src fuel children rules
          = (extractPairs src fuel children).bind fun ps =>
              .ok (ps.foldl (fun r p => insertMap r p.1 p.2) rules))
    ∧ (∀ (src : List Char) (fuel : Nat) (children : List Child)
        (rules rules' : List (String × Expr)),
        (buildRules src fuel children rules).succeeded
          = (buildRules src fuel children rules').succeeded)
    ∧ (∀ (ps rules : List (String × Expr)) (k : String),
        lookupRule (ps.foldl (fun r p => insertMap r p.1 p.2) rules) k
          = (match ps.reverse.find? (fun p => p.1 = k) with
              | some p => some p.2
              | none => lookupRule rules k))
    ∧ (∀ (ps rules : List (String × Expr)),
        nonTerminals (ps.foldl (fun r p => insertMap r p.1 p.2) rules)
          = extendS (nonTerminals rules) (ps.map (·.1)))
    ∧ (∀ (s : List String) (k : String), k ∈ s → insertS s k = s)
    ∧ pipelineG 200 "A = 'x' B = 'y' A = 'z'"
        = .ok [("A", .Sequence [.Literal "z"]), ("B", .Sequence [.Literal "y"])]
    ∧ nonTerminals
          [("A", .Sequence [.Literal "z"]), ("B", .Sequence [.Literal "y"])]
        = ["A", "B"] := by
  refine ⟨buildRules_insertMap_fold, ?_, lookupRule_foldl_insertMap, ?_, insertS_mem, by decide, by decide⟩
  · intro src fuel children rules rules'
    exact buildRules_succeeded_independent src fuel children rules rules'
  · intro ps rules
    exact nonTerminals_foldl_insertMap ps rules

theorem c10_duplicate_rule_last_wins_witness :
    "A" ∈ ["A", "B"]
    ∧ insertS ["A", "B"] "A" = ["A", "B"]
    ∧ lookupRule
        ([(("A" : String), Expr.Sequence [.Literal "x"]),
          ("B", Expr.Sequence [.Literal "y"]),
          ("A", Expr.Sequence [.Literal "z"])].foldl
            (fun r p => insertMap r p.1 p.2) []) "A"
      = some (Expr.Sequence [.Literal "z"]) := by
  refine ⟨by decide, ?_, ?_⟩
  · exact c10_duplicate_rule_last_wins.2.2.2.2.1 ["A", "B"] "A" (by decide)
  · rw [c10_duplicate_rule_last_wins.2.2.1
      [(("A" : String), Expr.Sequence [.Literal "x"]),
        ("B", Expr.Sequence [.Literal "y"]),
        ("A", Expr.Sequence [.Literal "z"])] [] "A"]
    decide
